import Mathlib

/-
Verification of the D3L hash-generator module
(src/d3l/indexing/hashing/hash_generators.py).

The module defines two hash-signature generators used for LSH indexing:
a MinHash generator over token iterables and a random-projection
generator over dense/sparse numeric vectors, sharing a base contract
(similarity_score, set_hash_permutations).

Modelling conventions:
- numpy uint64 arithmetic is Nat with explicit reduction mod 2 ^ 64;
  numpy silently wraps on overflow, which the model makes explicit.
- numpy float64 arithmetic (random projections) is modelled exactly
  over the rationals.
- A Python method that may raise is a function into Except Unit; the
  error value models the raised exception propagating with the
  receiver left in its pre-call state (both raises in the source occur
  before any field assignment).
- mmh3.hash(data, signed=False) is MurmurHash3 x86_32 with seed 0,
  modelled bit-exactly on byte lists.
- np.random.RandomState is modelled by a deterministic splitmix-style
  64-bit generator: per the spec (section 9) only determinism of the
  seeded source matters, not its exact distribution.
-/

namespace D3L

/-- MERSENNE_PRIME = 2^61 - 1, the modulus of the universal hash family
(hash_generators.py line 18). -/
def MERSENNE_PRIME : Nat := 2 ^ 61 - 1

/-- MAX_HASH = 2^32 - 1, the 32-bit mask / initial signature value
(hash_generators.py line 19). -/
def MAX_HASH : Nat := 2 ^ 32 - 1

/-- HASH_RANGE = 2^32 (hash_generators.py line 20). -/
def HASH_RANGE : Nat := 2 ^ 32

/- ### MurmurHash3 x86_32 (the mmh3.hash dependency, seed 0, unsigned) -/

/-- 32-bit left rotation, for x < 2^32. -/
def rotl32 (x r : Nat) : Nat := ((x <<< r) % 2 ^ 32) ||| (x >>> (32 - r))

/-- The murmur3 per-block mixing of a 32-bit word k. -/
def murmurMixK (k : Nat) : Nat :=
  rotl32 (k * 0xcc9e2d51 % 2 ^ 32) 15 * 0x1b873593 % 2 ^ 32

/-- Body and tail loop of murmur3 x86_32 over little-endian bytes. -/
def murmurGo (h : Nat) : List Nat → Nat
  | b0 :: b1 :: b2 :: b3 :: rest =>
    let k := b0 + b1 * 256 + b2 * 65536 + b3 * 16777216
    murmurGo ((rotl32 (h ^^^ murmurMixK k) 13 * 5 + 0xe6546b64) % 2 ^ 32) rest
  | [] => h
  | [t0] => h ^^^ murmurMixK t0
  | [t0, t1] => h ^^^ murmurMixK (t0 + t1 * 256)
  | [t0, t1, t2] => h ^^^ murmurMixK (t0 + t1 * 256 + t2 * 65536)

/-- Final avalanche of murmur3 x86_32. -/
def fmix32 (h : Nat) : Nat :=
  let h1 := (h ^^^ (h >>> 16)) * 0x85ebca6b % 2 ^ 32
  let h2 := (h1 ^^^ (h1 >>> 13)) * 0xc2b2ae35 % 2 ^ 32
  h2 ^^^ (h2 >>> 16)

/-- mmh3.hash(data, signed=False): MurmurHash3 x86_32, seed 0, returned as an
unsigned 32-bit value (used at hash_generators.py lines 199-201). -/
def mmh3Hash (bytes : List Nat) : Nat :=
  fmix32 (murmurGo 0 bytes ^^^ bytes.length)

/-- UTF-8 encoding of a Unicode code point (str.encode with utf-8; every
valid scalar value encodes, so errors=ignore never drops anything here). -/
def utf8EncodeCodepoint (c : Nat) : List Nat :=
  if c < 0x80 then [c]
  else if c < 0x800 then [0xC0 ||| (c >>> 6), 0x80 ||| (c &&& 0x3F)]
  else if c < 0x10000 then
    [0xE0 ||| (c >>> 12), 0x80 ||| ((c >>> 6) &&& 0x3F), 0x80 ||| (c &&& 0x3F)]
  else
    [0xF0 ||| (c >>> 18), 0x80 ||| ((c >>> 12) &&& 0x3F),
     0x80 ||| ((c >>> 6) &&& 0x3F), 0x80 ||| (c &&& 0x3F)]

/-- str(value).encode("utf-8", errors="ignore") for a string token. -/
def strUtf8 (s : String) : List Nat :=
  s.data.flatMap fun c => utf8EncodeCodepoint c.toNat

/-- The 32-bit unseeded hash of a token: mmh3.hash of its UTF-8 bytes
(hash_generators.py lines 199-201). -/
def tokenHash (s : String) : Nat := mmh3Hash (strUtf8 s)

/- ### Seeded random source (np.random.RandomState model) -/

/-- Model of one 64-bit draw of the seeded random source
(np.random.RandomState). Spec sections 2 and 9 require only a
deterministic seed-to-draws mapping, not numpy's exact distribution, so a
splitmix-style generator stands in for the Mersenne twister. -/
def rngNext (s : Nat) : Nat × Nat :=
  let s1 := (s + 0x9E3779B97F4A7C15) % 2 ^ 64
  let z1 := (s1 ^^^ (s1 >>> 30)) * 0xBF58476D1CE4E5B9 % 2 ^ 64
  let z2 := (z1 ^^^ (z1 >>> 27)) * 0x94D049BB133111EB % 2 ^ 64
  (z2 ^^^ (z2 >>> 31), s1)

/-- generator.randint(lo, hi): a draw in [lo, hi), threading the state. -/
def randint (lo hi s : Nat) : Nat × Nat :=
  let p := rngNext s
  (lo + p.1 % (hi - lo), p.2)

/- ### MinHashHashGenerator -/

/-- State of a MinHashHashGenerator: hash_size and seed from the base
class, plus the permutation coefficient rows (the source stores a
(2, hash_size) uint64 array whose rows unpack as perm_left, perm_right
at hash_generators.py line 197). -/
structure MinHashState where
  hash_size : Nat
  seed : Nat
  perm_left : List Nat
  perm_right : List Nat
deriving Repr, DecidableEq

/-- The constructor loop (hash_generators.py lines 133-142): hash_size
sequential coefficient pairs, a in [1, MERSENNE_PRIME), b in
[0, MERSENNE_PRIME), drawn from the seeded source. -/
def drawPermutations : Nat → Nat → List (Nat × Nat)
  | 0, _ => []
  | n + 1, s =>
    let pa := randint 1 MERSENNE_PRIME s
    let pb := randint 0 MERSENNE_PRIME pa.2
    (pa.1, pb.1) :: drawPermutations n pb.2

/-- MinHashHashGenerator.__init__ (hash_generators.py lines 115-142): the
transposed coefficient array is kept as its two rows. -/
def mkMinHash (hash_size seed : Nat) : MinHashState :=
  { hash_size := hash_size
    seed := seed
    perm_left := (drawPermutations hash_size seed).map Prod.fst
    perm_right := (drawPermutations hash_size seed).map Prod.snd }

/-- MinHashHashGenerator.set_hash_permutations (hash_generators.py lines
148-171): reject any argument whose shape is not (2, hash_size); otherwise
install the rows cast to uint64 (np.array(..., dtype=np.uint64)). The
error value models the ValueError raised before the single assignment. -/
def MinHashState.set_hash_permutations (g : MinHashState) (m : List (List Nat)) :
    Except Unit MinHashState :=
  if m.length ≠ 2 ∨ (m.headD []).length ≠ g.hash_size then
    Except.error ()
  else
    Except.ok
      { g with
        perm_left := (m.headD []).map (· % 2 ^ 64)
        perm_right := (m.getD 1 []).map (· % 2 ^ 64) }

/-- One permuted hash value (hash_generators.py lines 202-204):
np.bitwise_and((perm_left * encoded + perm_right) % MERSENNE_PRIME,
MAX_HASH) computed on uint64 operands, so the product and sum silently
wrap mod 2^64 before the reduction mod MERSENNE_PRIME. -/
def minhashPermute (a b h : Nat) : Nat :=
  ((a * h + b) % 2 ^ 64 % MERSENNE_PRIME) &&& MAX_HASH

/-- One iteration of the token loop (hash_generators.py lines 198-205):
hash the token, permute it under every coefficient pair, and take the
element-wise minimum with the running signature. -/
def minhashStep (pl pr sig : List Nat) (value : String) : List Nat :=
  List.zipWith min
    (List.zipWith (fun a b => minhashPermute a b (tokenHash value)) pl pr) sig

/-- MinHashHashGenerator.hash (hash_generators.py lines 173-207): start
from the passed signature or hash_size copies of MAX_HASH, fold every
token in, and return as uint64 (astype). -/
def MinHashState.hash (g : MinHashState) (values : List String)
    (hashvalues : Option (List Nat)) : List Nat :=
  let init := hashvalues.getD (List.replicate g.hash_size MAX_HASH)
  (values.foldl (fun sig v => minhashStep g.perm_left g.perm_right sig v) init).map
    (· % 2 ^ 64)

/-- BaseHashGenerator.similarity_score (hash_generators.py lines 81-111):
raise on length mismatch, else the count of equal positions divided by
the length. The numpy float division is modelled exactly over ℚ. -/
def similarity_score (l r : List Nat) : Except Unit ℚ :=
  if l.length ≠ r.length then Except.error ()
  else
    Except.ok
      ((((List.zip l r).countP fun p => p.1 == p.2 : Nat) : ℚ) / (l.length : ℚ))

/- ### RandomProjectionsHashGenerator -/

/-- One modelled standard-normal draw (generator.randn): a signed rational
derived from the 64-bit draw. Spec section 9: only determinism of the
seeded source is required, not the exact distribution. -/
def gaussDraw (s : Nat) : ℚ × Nat :=
  let p := rngNext s
  (((p.1 : ℚ) - 2 ^ 63) / 2 ^ 32, p.2)

/-- A row of dimension-many sequential randn draws. -/
def drawRow : Nat → Nat → List ℚ × Nat
  | 0, s => ([], s)
  | n + 1, s =>
    let p := gaussDraw s
    let rest := drawRow n p.2
    (p.1 :: rest.1, rest.2)

/-- generator.randn(rows, cols): a rows × cols matrix of sequential
draws. -/
def drawMatrix : Nat → Nat → Nat → List (List ℚ) × Nat
  | 0, _, s => ([], s)
  | r + 1, c, s =>
    let row := drawRow c s
    let rest := drawMatrix r c row.2
    (row.1 :: rest.1, rest.2)

/-- A CSR-style sparse row: (column index, value) entries with strictly
increasing indices and explicit zeros dropped, as scipy's canonical
csr_matrix of a dense array stores it. -/
abbrev SparseVec := List (Nat × ℚ)

/-- State of a RandomProjectionsHashGenerator (hash_generators.py lines
215-232): base fields, the input dimension, the dense normals matrix and
the lazily built sparse copy of it. -/
structure RandomProjectionsState where
  hash_size : Nat
  seed : Nat
  dimension : Nat
  normals : List (List ℚ)
  normals_csr : Option (List SparseVec)

/-- RandomProjectionsHashGenerator.__init__ (hash_generators.py lines
215-232): draw the hash_size × dimension normals matrix; no sparse copy
yet. -/
def mkRandomProjections (hash_size seed dimension : Nat) : RandomProjectionsState :=
  { hash_size := hash_size
    seed := seed
    dimension := dimension
    normals := (drawMatrix hash_size dimension seed).1
    normals_csr := none }

/-- csr_matrix of a dense row: keep the nonzero entries with their
positions, indices starting at i. -/
def sparseFrom : Nat → List ℚ → SparseVec
  | _, [] => []
  | i, x :: xs =>
    if x = 0 then sparseFrom (i + 1) xs else (i, x) :: sparseFrom (i + 1) xs

/-- The canonical sparse encoding of a dense vector. -/
def sparseOfDense (v : List ℚ) : SparseVec := sparseFrom 0 v

/-- Dense dot product (np.dot of a matrix row with the input vector). -/
def dot (xs ys : List ℚ) : ℚ := (List.zipWith (fun a b => a * b) xs ys).sum

/-- Sparse-times-sparse dot product by index merge, as scipy computes a
csr row against a csr-encoded vector: only positions stored on both
sides contribute. -/
def sparseDot : SparseVec → SparseVec → ℚ
  | [], _ => 0
  | _ :: _, [] => 0
  | (i, a) :: xs, (j, b) :: ys =>
    if i = j then a * b + sparseDot xs ys
    else if i < j then sparseDot xs ((j, b) :: ys)
    else sparseDot ((i, a) :: xs) ys
termination_by xs ys => xs.length + ys.length

/-- The hash input of RandomProjectionsHashGenerator.hash: a dense vector
or a sparse one (issparse dispatch at hash_generators.py line 285). -/
inductive RPInput where
  | dense (v : List ℚ)
  | sparse (v : SparseVec)

/-- RandomProjectionsHashGenerator.hash (hash_generators.py lines
265-294): project the input on every normal row (building and caching
the sparse basis on first sparse use) and emit 1 for strictly positive
components, else 0; the hashvalues argument is ignored. The pair returns
the signature together with the post-call generator state. -/
def RandomProjectionsState.hash (g : RandomProjectionsState) (values : RPInput)
    (_hashvalues : Option (List Nat)) : List Nat × RandomProjectionsState :=
  match values with
  | RPInput.sparse v =>
    let csr := g.normals_csr.getD (g.normals.map sparseOfDense)
    (csr.map fun row => if 0 < sparseDot row v then 1 else 0,
      { g with normals_csr := some csr })
  | RPInput.dense v =>
    (g.normals.map fun row => if 0 < dot row v then 1 else 0, g)

/-- RandomProjectionsHashGenerator.set_hash_permutations
(hash_generators.py lines 250-263): the body is pass, so the call
returns normally with the state untouched. -/
def RandomProjectionsState.set_hash_permutations (g : RandomProjectionsState)
    (_new_permutations : List (List Nat)) : Except Unit RandomProjectionsState :=
  Except.ok g

/- ### Helper lemmas -/

theorem drawPermutations_length (n s : Nat) : (drawPermutations n s).length = n := by
  induction n generalizing s with
  | zero => rfl
  | succ n ih => simp [drawPermutations, ih]

theorem mkMinHash_perm_left_length (hs seed : Nat) :
    (mkMinHash hs seed).perm_left.length = hs := by
  simp [mkMinHash, drawPermutations_length]

theorem mkMinHash_perm_right_length (hs seed : Nat) :
    (mkMinHash hs seed).perm_right.length = hs := by
  simp [mkMinHash, drawPermutations_length]

theorem minhashPermute_le (a b h : Nat) : minhashPermute a b h ≤ MAX_HASH :=
  Nat.and_le_right

theorem mem_zipWith_le {m : Nat} (f : Nat → Nat → Nat) (hf : ∀ a b, f a b ≤ m) :
    ∀ (A B : List Nat), ∀ x ∈ List.zipWith f A B, x ≤ m := by
  intro A
  induction A with
  | nil => simp
  | cons a A ih =>
    intro B x hx
    cases B with
    | nil => simp at hx
    | cons b B =>
      rw [List.zipWith_cons_cons, List.mem_cons] at hx
      rcases hx with h | h
      · exact h ▸ hf a b
      · exact ih B x h

theorem zipWith_min_mem_le {m : Nat} :
    ∀ (P B : List Nat), (∀ a ∈ P, a ≤ m) → ∀ x ∈ List.zipWith min P B, x ≤ m := by
  intro P
  induction P with
  | nil => simp
  | cons p P ih =>
    intro B hP x hx
    cases B with
    | nil => simp at hx
    | cons b B =>
      rw [List.zipWith_cons_cons, List.mem_cons] at hx
      rcases hx with h | h
      · exact h ▸ le_trans (min_le_left _ _) (hP p (by simp))
      · exact ih B (fun a ha => hP a (List.mem_cons_of_mem _ ha)) x h

theorem minhashStep_mem_le (pl pr sig : List Nat) (v : String) :
    ∀ x ∈ minhashStep pl pr sig v, x ≤ MAX_HASH := by
  unfold minhashStep
  exact zipWith_min_mem_le _ sig
    (mem_zipWith_le _ (fun a b => minhashPermute_le a b _) pl pr)

theorem foldl_minhashStep_mem_le (pl pr : List Nat) (values : List String)
    (init : List Nat) (h : ∀ x ∈ init, x ≤ MAX_HASH) :
    ∀ x ∈ List.foldl (fun sig v => minhashStep pl pr sig v) init values, x ≤ MAX_HASH := by
  induction values generalizing init with
  | nil => exact h
  | cons v values ih =>
    exact ih (minhashStep pl pr init v) (minhashStep_mem_le pl pr init v)

theorem map_mod_u64_eq_self (l : List Nat) (h : ∀ x ∈ l, x < 2 ^ 64) :
    l.map (· % 2 ^ 64) = l := by
  have : l.map (· % 2 ^ 64) = l.map id :=
    List.map_congr_left fun x hx => Nat.mod_eq_of_lt (h x hx)
  rw [this, List.map_id]

theorem MAX_HASH_lt_u64 : MAX_HASH < 2 ^ 64 := by decide

theorem zipWith_min_left_comm (xs ys zs : List Nat) :
    List.zipWith min xs (List.zipWith min ys zs) =
      List.zipWith min ys (List.zipWith min xs zs) := by
  induction xs generalizing ys zs with
  | nil => cases ys <;> cases zs <;> simp
  | cons x xs ih =>
    cases ys with
    | nil => simp
    | cons y ys =>
      cases zs with
      | nil => simp
      | cons z zs =>
        simp only [List.zipWith_cons_cons, ih]
        rw [min_left_comm]

theorem minhashStep_comm (pl pr sig : List Nat) (u v : String) :
    minhashStep pl pr (minhashStep pl pr sig u) v =
      minhashStep pl pr (minhashStep pl pr sig v) u := by
  unfold minhashStep
  exact zipWith_min_left_comm _ _ _

theorem foldl_minhashStep_out (pl pr : List Nat) (l : List String)
    (s : List Nat) (u : String) :
    List.foldl (fun sig v => minhashStep pl pr sig v) (minhashStep pl pr s u) l =
      minhashStep pl pr (List.foldl (fun sig v => minhashStep pl pr sig v) s l) u := by
  induction l generalizing s with
  | nil => rfl
  | cons v l ih =>
    simp only [List.foldl_cons]
    rw [minhashStep_comm, ih]

theorem foldl_minhashStep_append_comm (pl pr : List Nat) (A B : List String)
    (init : List Nat) :
    List.foldl (fun sig v => minhashStep pl pr sig v) init (A ++ B) =
      List.foldl (fun sig v => minhashStep pl pr sig v) init (B ++ A) := by
  induction A generalizing init with
  | nil => simp
  | cons u A ih =>
    rw [List.cons_append, List.foldl_cons, ih, List.foldl_append, List.foldl_append,
      foldl_minhashStep_out, ← List.foldl_cons, ← List.foldl_append]

theorem minhashStep_length (pl pr sig : List Nat) (v : String) :
    (minhashStep pl pr sig v).length = min (min pl.length pr.length) sig.length := by
  simp [minhashStep]

theorem foldl_minhashStep_length (pl pr : List Nat) (values : List String)
    (init : List Nat) (n : Nat) (hpl : pl.length = n) (hpr : pr.length = n)
    (hinit : init.length = n) :
    (List.foldl (fun sig v => minhashStep pl pr sig v) init values).length = n := by
  induction values generalizing init with
  | nil => exact hinit
  | cons v values ih =>
    exact ih (minhashStep pl pr init v) (by simp [minhashStep_length, hpl, hpr, hinit])

theorem drawRow_length (n s : Nat) : (drawRow n s).1.length = n := by
  induction n generalizing s with
  | zero => rfl
  | succ n ih => simp [drawRow, ih]

theorem drawMatrix_length (r c s : Nat) : (drawMatrix r c s).1.length = r := by
  induction r generalizing s with
  | zero => rfl
  | succ r ih => simp [drawMatrix, ih]

theorem drawMatrix_row_length (r c s : Nat) :
    ∀ row ∈ (drawMatrix r c s).1, row.length = c := by
  induction r generalizing s with
  | zero => simp [drawMatrix]
  | succ r ih =>
    intro row hrow
    rw [drawMatrix] at hrow
    simp only [List.mem_cons] at hrow
    rcases hrow with h | h
    · exact h ▸ drawRow_length c s
    · exact ih _ row h

theorem sparseFrom_index_ge (xs : List ℚ) :
    ∀ (n : Nat), ∀ p ∈ sparseFrom n xs, n ≤ p.1 := by
  induction xs with
  | nil => simp [sparseFrom]
  | cons x xs ih =>
    intro n p hp
    rw [sparseFrom] at hp
    by_cases hx : x = 0
    · rw [if_pos hx] at hp
      exact le_trans (Nat.le_succ n) (ih (n + 1) p hp)
    · rw [if_neg hx, List.mem_cons] at hp
      rcases hp with h | h
      · simp [h]
      · exact le_trans (Nat.le_succ n) (ih (n + 1) p h)

theorem sparseDot_nil_right (xs : SparseVec) : sparseDot xs [] = 0 := by
  cases xs <;> simp [sparseDot]

theorem sparseDot_cons_left_skip (i : Nat) (a : ℚ) (xs ys : SparseVec)
    (h : ∀ p ∈ ys, i < p.1) : sparseDot ((i, a) :: xs) ys = sparseDot xs ys := by
  cases ys with
  | nil => rw [sparseDot_nil_right, sparseDot_nil_right]
  | cons q ys =>
    obtain ⟨j, b⟩ := q
    have hij : i < j := h (j, b) (by simp)
    simp only [sparseDot]
    rw [if_neg (Nat.ne_of_lt hij), if_pos hij]

theorem sparseDot_cons_right_skip (j : Nat) (b : ℚ) (xs ys : SparseVec)
    (h : ∀ p ∈ xs, j < p.1) : sparseDot xs ((j, b) :: ys) = sparseDot xs ys := by
  cases xs with
  | nil => simp [sparseDot]
  | cons q xs =>
    obtain ⟨i, a⟩ := q
    have hji : j < i := h (i, a) (by simp)
    simp only [sparseDot]
    rw [if_neg (Nat.ne_of_gt hji), if_neg (Nat.not_lt_of_gt hji)]

theorem dot_cons (x y : ℚ) (xs ys : List ℚ) :
    dot (x :: xs) (y :: ys) = x * y + dot xs ys := by
  simp [dot]

theorem sparseDot_sparseFrom (xs : List ℚ) :
    ∀ (n : Nat) (ys : List ℚ), xs.length = ys.length →
      sparseDot (sparseFrom n xs) (sparseFrom n ys) = dot xs ys := by
  induction xs with
  | nil =>
    intro n ys h
    obtain rfl : ys = [] := List.eq_nil_of_length_eq_zero h.symm
    simp [sparseFrom, sparseDot, dot]
  | cons x xs ih =>
    intro n ys h
    cases ys with
    | nil => simp at h
    | cons y ys =>
      have hlen : xs.length = ys.length := by simpa using h
      rw [dot_cons, sparseFrom, sparseFrom]
      by_cases hx : x = 0 <;> by_cases hy : y = 0
      · rw [if_pos hx, if_pos hy, ih (n + 1) ys hlen, hx, zero_mul, zero_add]
      · rw [if_pos hx, if_neg hy,
          sparseDot_cons_right_skip n y _ _
            (fun p hp => Nat.lt_of_succ_le (sparseFrom_index_ge xs (n + 1) p hp)),
          ih (n + 1) ys hlen, hx, zero_mul, zero_add]
      · rw [if_neg hx, if_pos hy,
          sparseDot_cons_left_skip n x _ _
            (fun p hp => Nat.lt_of_succ_le (sparseFrom_index_ge ys (n + 1) p hp)),
          ih (n + 1) ys hlen, hy, mul_zero, zero_add]
      · rw [if_neg hx, if_neg hy]
        simp only [sparseDot]
        rw [if_pos trivial, ih (n + 1) ys hlen]

theorem sparseDot_sparseOfDense (xs ys : List ℚ) (h : xs.length = ys.length) :
    sparseDot (sparseOfDense xs) (sparseOfDense ys) = dot xs ys :=
  sparseDot_sparseFrom xs 0 ys h

/- ### Claim theorems -/

/-- C1 (amended): for every token processed by the MinHash hash operation,
with h the 32-bit unseeded hash of the token's UTF-8 bytes, position i of
the running signature is updated to
min(current[i], (((a_i * h + b_i) mod 2^64) mod MERSENNE_PRIME) AND MAX_HASH).
The coefficients are numpy uint64, so the product and sum wrap modulo 2^64
before the reduction by MERSENNE_PRIME; the 32-bit mask is applied after
the modular reduction. -/
theorem minhash_update_wrapped (pl pr sig : List Nat) (t : String) (i : Nat)
    (hi : i < (minhashStep pl pr sig t).length)
    (hpl : i < pl.length) (hpr : i < pr.length) (hs : i < sig.length) :
    (minhashStep pl pr sig t).get ⟨i, hi⟩ =
      min (((pl.get ⟨i, hpl⟩ * tokenHash t + pr.get ⟨i, hpr⟩) % 2 ^ 64 %
          MERSENNE_PRIME) &&& MAX_HASH)
        (sig.get ⟨i, hs⟩) := by
  simp [minhashStep, minhashPermute, List.get_eq_getElem, List.getElem_zipWith]

/-- C1 witness: the amended update formula instantiated at a concrete
coefficient pair, running signature and token. -/
theorem minhash_update_wrapped_w :
    (minhashStep [2 ^ 60] [0] [4294967295] "a").get ⟨0, by decide⟩ =
      min (((2 ^ 60 * tokenHash ("a") + 0) % 2 ^ 64 % MERSENNE_PRIME) &&& MAX_HASH)
        4294967295 :=
  minhash_update_wrapped [2 ^ 60] [0] [4294967295] "a" 0 (by decide) (by decide)
    (by decide) (by decide)

/-- C1 counterexample: with coefficients a = 2^60, b = 0 (installable via
set_hash_permutations, which validates only the shape) and token "a"
(mmh3 hash 1009084850), the code's update is 1 while the claimed
exact-arithmetic formula min(current[i], ((a*h + b) mod MERSENNE_PRIME)
AND MAX_HASH) gives 504542425: the product overflows 64 bits, so the
reduction by MERSENNE_PRIME is not exact integer arithmetic. -/
theorem minhash_update_exact_cex :
    (minhashStep [2 ^ 60] [0] [4294967295] "a").get ⟨0, by decide⟩ ≠
      min (((2 ^ 60 * tokenHash ("a") + 0) % MERSENNE_PRIME) &&& MAX_HASH)
        4294967295 := by
  decide

/-- C2: similarity_score fails exactly when the two signatures differ in
length; on equal-length signatures it returns the number of agreeing
positions divided by the common length, a value in [0, 1]. -/
theorem similarity_score_spec (l r : List Nat) :
    (similarity_score l r = Except.error () ↔ l.length ≠ r.length) ∧
    (l.length = r.length →
      similarity_score l r =
        Except.ok ((((List.zip l r).countP fun p => p.1 == p.2 : Nat) : ℚ) /
          (l.length : ℚ)) ∧
      ∀ q : ℚ, similarity_score l r = Except.ok q → 0 ≤ q ∧ q ≤ 1) := by
  have hcount : ((List.zip l r).countP fun p => p.1 == p.2) ≤ l.length := by
    calc ((List.zip l r).countP fun p => p.1 == p.2)
        ≤ (List.zip l r).length := List.countP_le_length _
      _ = min l.length r.length := List.length_zip _ _
      _ ≤ l.length := min_le_left _ _
  constructor
  · unfold similarity_score
    by_cases h : l.length = r.length <;> simp [h]
  · intro hlen
    have hok : similarity_score l r =
        Except.ok ((((List.zip l r).countP fun p => p.1 == p.2 : Nat) : ℚ) /
          (l.length : ℚ)) := by
      unfold similarity_score
      rw [if_neg (by simp [hlen])]
    refine ⟨hok, fun q hq => ?_⟩
    rw [hok] at hq
    have hq2 : ((((List.zip l r).countP fun p => p.1 == p.2 : Nat) : ℚ) /
        (l.length : ℚ)) = q := by
      injection hq
    subst hq2
    constructor
    · exact div_nonneg (Nat.cast_nonneg _) (Nat.cast_nonneg _)
    · by_cases hn : l.length = 0
      · obtain rfl : l = [] := List.eq_nil_of_length_eq_zero hn
        simp
      · have hpos : (0 : ℚ) < (l.length : ℚ) := by
          exact_mod_cast Nat.pos_of_ne_zero hn
        rw [div_le_one hpos]
        exact_mod_cast hcount

/-- C2 witness: two equal-length signatures agreeing in 2 of 3 positions. -/
theorem similarity_score_spec_w :
    similarity_score [1, 2, 3] [1, 5, 3] =
      Except.ok ((((List.zip [1, 2, 3] [1, 5, 3]).countP fun p => p.1 == p.2 :
        Nat) : ℚ) / (([1, 2, 3] : List Nat).length : ℚ)) ∧
    ((List.zip [1, 2, 3] [1, 5, 3]).countP fun p => p.1 == p.2) = 2 ∧
    similarity_score [1, 2] [1, 2, 3] = Except.error () :=
  ⟨((similarity_score_spec [1, 2, 3] [1, 5, 3]).2 rfl).1, by decide,
    (similarity_score_spec [1, 2] [1, 2, 3]).1.mpr (by decide)⟩

/-- C3: MinHash set_hash_permutations fails exactly when the argument's
shape is not (2, hash_size); the error models the ValueError raised
before the single assignment, so the permutations stay what they were;
a (2, hash_size) argument replaces both coefficient rows. -/
theorem minhash_set_hash_permutations_shape (g : MinHashState)
    (m : List (List Nat))
    (hrect : ∀ row ∈ m, row.length = (m.headD []).length) :
    (MinHashState.set_hash_permutations g m = Except.error () ↔
      ¬(m.length = 2 ∧ (m.headD []).length = g.hash_size)) ∧
    (m.length = 2 ∧ (m.headD []).length = g.hash_size →
      MinHashState.set_hash_permutations g m =
        Except.ok
          { g with
            perm_left := (m.headD []).map (· % 2 ^ 64)
            perm_right := (m.getD 1 []).map (· % 2 ^ 64) }) := by
  unfold MinHashState.set_hash_permutations
  by_cases h : m.length ≠ 2 ∨ (m.headD []).length ≠ g.hash_size
  · rw [if_pos h]
    exact ⟨⟨fun _ => by tauto, fun _ => rfl⟩, fun hc => by tauto⟩
  · rw [if_neg h]
    push_neg at h
    exact ⟨⟨fun he => absurd he (by simp), fun hc => absurd ⟨h.1, h.2⟩ hc⟩,
      fun _ => rfl⟩

/-- C3 witness: a shape-(1, 3) argument is rejected and a shape-(2, 2)
argument replaces the permutations of a hash_size-2 generator. -/
theorem minhash_set_hash_permutations_shape_w :
    MinHashState.set_hash_permutations (mkMinHash 2 0) [[1, 2, 3]] =
      Except.error () ∧
    MinHashState.set_hash_permutations (mkMinHash 2 0) [[1, 2], [3, 4]] =
      Except.ok
        { mkMinHash 2 0 with
          perm_left := [1, 2].map (· % 2 ^ 64)
          perm_right := [3, 4].map (· % 2 ^ 64) } :=
  ⟨(minhash_set_hash_permutations_shape (mkMinHash 2 0) [[1, 2, 3]]
      (by decide)).1.mpr (by decide),
    (minhash_set_hash_permutations_shape (mkMinHash 2 0) [[1, 2], [3, 4]]
      (by decide)).2 (by decide)⟩

/-- C10: the shape check is the only validation set_hash_permutations
performs: any 2-row argument whose rows have length hash_size is accepted
whatever the coefficient values, and the values are installed reduced
mod 2^64 (the uint64 cast), with no range check against MERSENNE_PRIME
or against a_i = 0. -/
theorem minhash_set_hash_permutations_no_value_check (g : MinHashState)
    (r0 r1 : List Nat) (h0 : r0.length = g.hash_size)
    (h1 : r1.length = g.hash_size) :
    MinHashState.set_hash_permutations g [r0, r1] =
      Except.ok
        { g with
          perm_left := r0.map (· % 2 ^ 64)
          perm_right := r1.map (· % 2 ^ 64) } := by
  unfold MinHashState.set_hash_permutations
  rw [if_neg]
  · rfl
  · simp [h0]

/-- C10 witness: out-of-range coefficients — a_0 = 0, a_1 = MERSENNE_PRIME,
b_0 = 2^64 + 5 (wrapping to 5 under the uint64 cast), b_1 = 2^61 — are
accepted by a hash_size-2 generator. -/
theorem minhash_set_hash_permutations_no_value_check_w :
    MinHashState.set_hash_permutations (mkMinHash 2 0)
        [[0, MERSENNE_PRIME], [2 ^ 64 + 5, 2 ^ 61]] =
      Except.ok
        { mkMinHash 2 0 with
          perm_left := [0, MERSENNE_PRIME].map (· % 2 ^ 64)
          perm_right := [2 ^ 64 + 5, 2 ^ 61].map (· % 2 ^ 64) } ∧
    [0, MERSENNE_PRIME].map (· % 2 ^ 64) = [0, MERSENNE_PRIME] ∧
    [2 ^ 64 + 5, 2 ^ 61].map (· % 2 ^ 64) = [5, 2 ^ 61] :=
  ⟨minhash_set_hash_permutations_no_value_check (mkMinHash 2 0)
      [0, MERSENNE_PRIME] [2 ^ 64 + 5, 2 ^ 61] (by decide) (by decide),
    by decide, by decide⟩

/-- C4: folding tokens B into the signature of tokens A equals hashing the
concatenation A ++ B in one call, and the fold is order-independent:
hashing A ++ B and B ++ A give the same signature. -/
theorem minhash_hash_incremental (g : MinHashState) (A B : List String) :
    g.hash B (some (g.hash A none)) = g.hash (A ++ B) none ∧
    g.hash (A ++ B) none = g.hash (B ++ A) none := by
  constructor
  · unfold MinHashState.hash
    simp only [Option.getD_some, Option.getD_none]
    rw [map_mod_u64_eq_self _ fun x hx =>
      lt_of_le_of_lt
        (foldl_minhashStep_mem_le _ _ _ _
          (fun y hy => le_of_eq (List.eq_of_mem_replicate hy)) x hx)
        MAX_HASH_lt_u64]
    rw [List.foldl_append]
  · unfold MinHashState.hash
    simp only [Option.getD_none]
    rw [foldl_minhashStep_append_comm]

/-- C5: hashing an empty token iterable returns the initial signature: the
supplied existing signature (of uint64 values) when given, and hash_size
copies of MAX_HASH otherwise. -/
theorem minhash_hash_empty (g : MinHashState) (sig : List Nat)
    (hb : ∀ x ∈ sig, x < 2 ^ 64) :
    g.hash [] (some sig) = sig ∧
    g.hash [] none = List.replicate g.hash_size MAX_HASH := by
  constructor
  · unfold MinHashState.hash
    simp only [List.foldl_nil, Option.getD_some]
    exact map_mod_u64_eq_self sig hb
  · unfold MinHashState.hash
    simp only [List.foldl_nil, Option.getD_none]
    exact map_mod_u64_eq_self _ fun x hx =>
      lt_of_le_of_lt (le_of_eq (List.eq_of_mem_replicate hx)) MAX_HASH_lt_u64

/-- C5 witness: a hash_size-3 generator on an empty input, with and
without an existing signature. -/
theorem minhash_hash_empty_w :
    (mkMinHash 3 5).hash [] (some [7, 4294967296]) = [7, 4294967296] ∧
    (mkMinHash 3 5).hash [] none = List.replicate 3 MAX_HASH :=
  minhash_hash_empty (mkMinHash 3 5) [7, 4294967296] (by decide)

/-- C6: every produced signature has length exactly hash_size: MinHash on
any finite token list, and random projections on dense and on sparse
input. -/
theorem hash_length_invariant (hs seed dim : Nat) (values : List String)
    (v : List ℚ) (sv : SparseVec) :
    (MinHashState.hash (mkMinHash hs seed) values none).length = hs ∧
    ((mkRandomProjections hs seed dim).hash (RPInput.dense v) none).1.length = hs ∧
    ((mkRandomProjections hs seed dim).hash (RPInput.sparse sv) none).1.length = hs := by
  refine ⟨?_, ?_, ?_⟩
  · unfold MinHashState.hash
    simp only [Option.getD_none]
    rw [List.length_map]
    exact foldl_minhashStep_length _ _ values _ hs (mkMinHash_perm_left_length hs seed)
      (mkMinHash_perm_right_length hs seed) (List.length_replicate _ _)
  · simp [RandomProjectionsState.hash, mkRandomProjections, drawMatrix_length]
  · simp [RandomProjectionsState.hash, mkRandomProjections, drawMatrix_length]

/-- C7: two generators constructed with identical hash_size and seed (and
dimension) have identical derived permutations / projection basis, and
hash identical inputs to identical signatures. -/
theorem generator_determinism (hs seed dim : Nat) (g1 g2 : MinHashState)
    (r1 r2 : RandomProjectionsState)
    (h1 : g1 = mkMinHash hs seed) (h2 : g2 = mkMinHash hs seed)
    (h3 : r1 = mkRandomProjections hs seed dim)
    (h4 : r2 = mkRandomProjections hs seed dim) :
    (g1.perm_left = g2.perm_left ∧ g1.perm_right = g2.perm_right) ∧
    r1.normals = r2.normals ∧
    (∀ values hv, g1.hash values hv = g2.hash values hv) ∧
    (∀ input hv, (r1.hash input hv).1 = (r2.hash input hv).1) := by
  subst h1 h2 h3 h4
  exact ⟨⟨rfl, rfl⟩, rfl, fun _ _ => rfl, fun _ _ => rfl⟩

/-- C7 witness: two-run determinism at concrete sizes, seeds and inputs. -/
theorem generator_determinism_w :
    (mkMinHash 2 3).hash ["a"] none = (mkMinHash 2 3).hash ["a"] none ∧
    ((mkRandomProjections 2 3 2).hash (RPInput.dense [1, 2]) none).1 =
      ((mkRandomProjections 2 3 2).hash (RPInput.dense [1, 2]) none).1 :=
  ⟨(generator_determinism 2 3 2 _ _ _ _ rfl rfl rfl rfl).2.2.1 ["a"] none,
    (generator_determinism 2 3 2 _ _ _ _ rfl rfl rfl rfl).2.2.2
      (RPInput.dense [1, 2]) none⟩

/-- C8: for a vector of the configured dimension, the cached-sparse-basis
path on the sparse encoding produces the same 0/1 signature as the dense
dot-product path, and each dense component is 1 exactly when the
projection is strictly greater than zero. -/
theorem rp_dense_sparse_equiv (g : RandomProjectionsState) (v : List ℚ)
    (hrows : ∀ row ∈ g.normals, row.length = v.length)
    (hcsr : g.normals_csr = none ∨
      g.normals_csr = some (g.normals.map sparseOfDense)) :
    (g.hash (RPInput.sparse (sparseOfDense v)) none).1 =
      (g.hash (RPInput.dense v) none).1 ∧
    ∀ (i : Nat) (hi : i < (g.hash (RPInput.dense v) none).1.length)
      (hn : i < g.normals.length),
      (g.hash (RPInput.dense v) none).1.get ⟨i, hi⟩ =
        if 0 < dot (g.normals.get ⟨i, hn⟩) v then 1 else 0 := by
  constructor
  · have hc : g.normals_csr.getD (g.normals.map sparseOfDense) =
        g.normals.map sparseOfDense := by
      rcases hcsr with h | h <;> simp [h]
    simp only [RandomProjectionsState.hash, hc, List.map_map]
    exact List.map_congr_left fun row hrow => by
      simp only [Function.comp_apply]
      rw [sparseDot_sparseOfDense row v (hrows row hrow)]
  · intro i hi hn
    simp [RandomProjectionsState.hash, List.get_eq_getElem, List.getElem_map]

/-- C8 witness: a freshly constructed dimension-2 generator hashing the
vector (1, -1) densely and through its sparse encoding. -/
theorem rp_dense_sparse_equiv_w :
    ((mkRandomProjections 2 0 2).hash
        (RPInput.sparse (sparseOfDense [1, -1])) none).1 =
      ((mkRandomProjections 2 0 2).hash (RPInput.dense [1, -1]) none).1 :=
  (rp_dense_sparse_equiv (mkRandomProjections 2 0 2) [1, -1]
    (fun row hrow => drawMatrix_row_length 2 2 0 row hrow)
    (Or.inl rfl)).1

/-- C9: random-projection set_hash_permutations is a no-op: for every
argument it returns normally with the generator state — basis matrix,
cached sparse basis, hash_size, seed and dimension — unchanged. -/
theorem rp_set_hash_permutations_noop (g : RandomProjectionsState)
    (m : List (List Nat)) :
    RandomProjectionsState.set_hash_permutations g m = Except.ok g :=
  rfl

end D3L
